import Mathlib

/-!
# Verilator/UVM testbench driver and UVM HDL backdoor stub

Shallow embedding of

* `src/test-uvm/tb_ddr2_controller_uvm.cpp` (`main_time`, `main`), and
* `src/tools/uvm-2017/1800.2-2017-1.0/src/dpi/uvm_hdl_verilator.c`
  (the six `uvm_hdl_*` entry points).

The generated model `Vtb_ddr2_controller_uvm` and the Verilator runtime are
external; they appear as an abstract `Model` over an arbitrary state type.
The `while` loop of `main` is embedded with explicit fuel: `none` means the
fuel ran out before the loop condition became false.
-/

namespace DDR2Tb

/-! ## Data model -/

/-- Number of values of a `vluint64_t`; `main_time += 1` is taken modulo this. -/
def VLUINT64_MOD : Nat := 2 ^ 64

/-- The external collaborators of `main`, over an arbitrary world state `σ`
(model instance plus the Verilator runtime, including its finish flag).
`eval` is `top->eval()` and `final` is `top->final()`; both receive the current
`main_time`, which the model can read through `sc_time_stamp()`.
`gotFinish` is `Verilated::gotFinish()`. -/
structure Model (σ : Type) where
  eval : Nat → σ → σ
  final : Nat → σ → σ
  gotFinish : σ → Bool

/-- Observable calls made by `main`, in program order. `eval` and `final`
carry the value of `main_time` and the world state at the moment of the call;
`dump` and `printf` carry their numeric argument. -/
inductive Call (σ : Type) where
  | vcdOpen : Call σ
  | eval (time : Nat) (pre : σ) : Call σ
  | dump (time : Nat) : Call σ
  | printf (time : Nat) : Call σ
  | final (time : Nat) (pre : σ) : Call σ
  | vcdClose : Call σ

/-- Mutable state of `main`: the global `main_time`, the world behind `top`,
and the log of calls made so far. -/
structure Driver (σ : Type) where
  main_time : Nat
  top : σ
  calls : List (Call σ)

/-- What a finished run of `main` leaves behind: the returned `exit_code`
and the final driver state. -/
structure Outcome (σ : Type) where
  exit_code : Int
  main_time : Nat
  top : σ
  calls : List (Call σ)

/-! ## The driver (`tb_ddr2_controller_uvm.cpp`) -/

/-- Loop condition, line 48: `!Verilated::gotFinish() && main_time < max_time`. -/
def loopCond {σ : Type} (m : Model σ) (max_time : Nat) (d : Driver σ) : Bool :=
  !m.gotFinish d.top && decide (d.main_time < max_time)

/-- Loop body, lines 49-57: `top->eval()`, then (under `VM_TRACE`, where `tfp`
is the non-null result of `new`) `tfp->dump(main_time)`, then `main_time += 1`
on a 64-bit unsigned counter. -/
def loopBody {σ : Type} (m : Model σ) (vm_trace : Bool) (d : Driver σ) : Driver σ :=
  let d1 : Driver σ :=
    { d with top := m.eval d.main_time d.top,
             calls := d.calls ++ [Call.eval d.main_time d.top] }
  let d2 : Driver σ :=
    if vm_trace then { d1 with calls := d1.calls ++ [Call.dump d1.main_time] } else d1
  { d2 with main_time := (d2.main_time + 1) % VLUINT64_MOD }

/-- The `while` loop of lines 48-58. One unit of fuel is used per test of the
loop condition. -/
def whileLoop {σ : Type} (m : Model σ) (vm_trace : Bool) (max_time : Nat) :
    Nat → Driver σ → Option (Driver σ)
  | 0, _ => none
  | fuel + 1, d =>
    if loopCond m max_time d then whileLoop m vm_trace max_time fuel (loopBody m vm_trace d)
    else some d

/-- Exactly `k` completed loop iterations from `d`: the loop condition holds
before each of them. `none` when the loop leaves earlier. -/
def iterLoop {σ : Type} (m : Model σ) (vm_trace : Bool) (max_time : Nat) :
    Nat → Driver σ → Option (Driver σ)
  | 0, d => some d
  | k + 1, d =>
    if loopCond m max_time d then iterLoop m vm_trace max_time k (loopBody m vm_trace d)
    else none

/-- State of `main` when it first reaches the loop, lines 15-38:
`main_time = 0`, under `VM_TRACE` the trace file has been opened, and the
model has been evaluated once. -/
def beforeLoop {σ : Type} (m : Model σ) (vm_trace : Bool) (init : σ) : Driver σ :=
  let d0 : Driver σ := { main_time := 0, top := init, calls := [] }
  let d1 : Driver σ :=
    if vm_trace then { d0 with calls := d0.calls ++ [Call.vcdOpen] } else d0
  { d1 with top := m.eval d1.main_time d1.top,
            calls := d1.calls ++ [Call.eval d1.main_time d1.top] }

/-- Lines 60-79 of `main`, from the state in which the loop was left. -/
def afterLoop {σ : Type} (m : Model σ) (vm_trace : Bool) (max_time : Nat)
    (d : Driver σ) : Outcome σ :=
  let exit_code0 : Int := 0
  let r : Int × Driver σ :=
    if d.main_time ≥ max_time then
      (1, { d with calls := d.calls ++ [Call.printf d.main_time] })
    else (exit_code0, d)
  let d1 : Driver σ := r.2
  let d2 : Driver σ :=
    { d1 with top := m.final d1.main_time d1.top,
              calls := d1.calls ++ [Call.final d1.main_time d1.top] }
  let d3 : Driver σ :=
    if vm_trace then { d2 with calls := d2.calls ++ [Call.vcdClose] } else d2
  { exit_code := r.1, main_time := d3.main_time, top := d3.top, calls := d3.calls }

/-- The function `main` with the constant `max_time` and the compile-time flag
`VM_TRACE` as parameters; `init` is the world at process start. -/
def main {σ : Type} (m : Model σ) (vm_trace : Bool) (max_time fuel : Nat) (init : σ) :
    Option (Outcome σ) :=
  match whileLoop m vm_trace max_time fuel (beforeLoop m vm_trace init) with
  | none => none
  | some d => some (afterLoop m vm_trace max_time d)

/-! ## Projections of the call log -/

/-- Timestamps handed to `tfp->dump`, in call order. -/
def dumpTimes {σ : Type} (cs : List (Call σ)) : List Nat :=
  cs.filterMap fun c => match c with
    | Call.dump t => some t
    | _ => none

/-- Numbers printed by the timeout diagnostic, in call order. -/
def printfTimes {σ : Type} (cs : List (Call σ)) : List Nat :=
  cs.filterMap fun c => match c with
    | Call.printf t => some t
    | _ => none

/-- The `top->eval()` calls of a log, in call order: `main_time` and the world
state at the call. -/
def evalCalls {σ : Type} (cs : List (Call σ)) : List (Nat × σ) :=
  cs.filterMap fun c => match c with
    | Call.eval t s => some (t, s)
    | _ => none

/-- The `top->final()` calls of a log, in call order. -/
def finalCalls {σ : Type} (cs : List (Call σ)) : List (Nat × σ) :=
  cs.filterMap fun c => match c with
    | Call.final t s => some (t, s)
    | _ => none

/-! ## The evaluations a run performs -/

/-- World state after the evaluation before the loop and `k` further
evaluations in the loop (made at `main_time = 0, 1, ..., k - 1`). -/
def modelAfter {σ : Type} (m : Model σ) (init : σ) : Nat → σ
  | 0 => m.eval 0 init
  | k + 1 => m.eval k (modelAfter m init k)

/-- Calls logged by `k` loop iterations started at `main_time = 0`. -/
def loopCalls {σ : Type} (m : Model σ) (vm_trace : Bool) (init : σ) : Nat → List (Call σ)
  | 0 => []
  | k + 1 =>
    loopCalls m vm_trace init k ++
      (Call.eval k (modelAfter m init k) :: (if vm_trace then [Call.dump k] else []))

/-- Driver state at the loop head after `k` iterations, in closed form. -/
def atLoopHead {σ : Type} (m : Model σ) (vm_trace : Bool) (init : σ) (k : Nat) : Driver σ :=
  { main_time := k,
    top := modelAfter m init k,
    calls := (if vm_trace then [Call.vcdOpen] else []) ++
      (Call.eval 0 init :: loopCalls m vm_trace init k) }

/-! ## The backdoor stub (`uvm_hdl_verilator.c`) -/

/-- One `s_vpi_vecval` word pair, the element type behind `p_vpi_vecval`. -/
structure VpiVecval where
  aval : Nat
  bval : Nat
deriving DecidableEq, Repr

/-- `int uvm_hdl_check_path(char *path)`. The argument is the string behind
`path`; the result is the returned `int` and that string after the call. -/
def uvm_hdl_check_path (path : List Nat) : Int × List Nat := (0, path)

/-- `int uvm_hdl_read(char *path, p_vpi_vecval value)`. The arguments are the
string behind `path` and the words behind `value`; the result is the returned
`int` and both buffers after the call. -/
def uvm_hdl_read (path : List Nat) (value : List VpiVecval) :
    Int × List Nat × List VpiVecval := (0, path, value)

/-- `int uvm_hdl_deposit(char *path, p_vpi_vecval value)`. -/
def uvm_hdl_deposit (path : List Nat) (value : List VpiVecval) :
    Int × List Nat × List VpiVecval := (0, path, value)

/-- `int uvm_hdl_force(char *path, p_vpi_vecval value)`. -/
def uvm_hdl_force (path : List Nat) (value : List VpiVecval) :
    Int × List Nat × List VpiVecval := (0, path, value)

/-- `int uvm_hdl_release_and_read(char *path, p_vpi_vecval value)`. -/
def uvm_hdl_release_and_read (path : List Nat) (value : List VpiVecval) :
    Int × List Nat × List VpiVecval := (0, path, value)

/-- `int uvm_hdl_release(char *path)`. -/
def uvm_hdl_release (path : List Nat) : Int × List Nat := (0, path)

/-! ## Concrete models used as test inputs -/

/-- A model that never calls `$finish`. -/
def neverFinish : Model Unit :=
  { eval := fun _ s => s, final := fun _ s => s, gotFinish := fun _ => false }

/-- A model whose world counts evaluations and which has called `$finish`
once `n` evaluations have been made. -/
def finishAfter (n : Nat) : Model Nat :=
  { eval := fun _ s => s + 1, final := fun _ s => s, gotFinish := fun s => decide (n ≤ s) }

/-! ## Loop lemmas -/

theorem beforeLoop_eq {σ : Type} (m : Model σ) (vm_trace : Bool) (init : σ) :
    beforeLoop m vm_trace init = atLoopHead m vm_trace init 0 := by
  cases vm_trace <;> simp [beforeLoop, atLoopHead, modelAfter, loopCalls]

theorem loopBody_atLoopHead {σ : Type} (m : Model σ) (vm_trace : Bool) (init : σ) (k : Nat)
    (hk : k + 1 < VLUINT64_MOD) :
    loopBody m vm_trace (atLoopHead m vm_trace init k) = atLoopHead m vm_trace init (k + 1) := by
  cases vm_trace <;>
    simp [loopBody, atLoopHead, modelAfter, loopCalls, Nat.mod_eq_of_lt hk]

/-- Loop invariant and termination: started at the loop head after `k`
iterations with enough fuel, the loop leaves at the head after some `n`
iterations, `n` being the first index from `k` on at which the finish flag is
set or the bound is reached. -/
theorem whileLoop_atLoopHead {σ : Type} (m : Model σ) (vm_trace : Bool) (init : σ) (T : Nat)
    (hT : T < VLUINT64_MOD) :
    ∀ (fuel k : Nat), k ≤ T → T - k < fuel →
      ∃ n, k ≤ n ∧ n ≤ T ∧
        (∀ i, k ≤ i → i < n → m.gotFinish (modelAfter m init i) = false) ∧
        (n = T ∨ m.gotFinish (modelAfter m init n) = true) ∧
        whileLoop m vm_trace T fuel (atLoopHead m vm_trace init k)
          = some (atLoopHead m vm_trace init n) := by
  intro fuel
  induction fuel with
  | zero => intro k _ h; omega
  | succ fuel ih =>
    intro k hk hfuel
    by_cases hc : loopCond m T (atLoopHead m vm_trace init k) = true
    · have hc2 := hc
      simp only [loopCond, atLoopHead, Bool.and_eq_true, Bool.not_eq_true',
        decide_eq_true_eq] at hc2
      obtain ⟨hflag, hlt⟩ := hc2
      have hk1 : k + 1 < VLUINT64_MOD := by omega
      obtain ⟨n, hkn, hnT, hall, hstop, hrun⟩ := ih (k + 1) (by omega) (by omega)
      refine ⟨n, by omega, hnT, ?_, hstop, ?_⟩
      · intro i hki hin
        by_cases hik : i = k
        · subst hik; exact hflag
        · exact hall i (by omega) hin
      · simp only [whileLoop, hc, if_true, loopBody_atLoopHead m vm_trace init k hk1]
        exact hrun
    · refine ⟨k, le_refl k, hk, ?_, ?_, ?_⟩
      · intro i hki hin; omega
      · have hc2 := hc
        simp only [loopCond, atLoopHead, Bool.and_eq_true, Bool.not_eq_true',
          decide_eq_true_eq, not_and, not_lt] at hc2
        by_cases hf : m.gotFinish (modelAfter m init k) = true
        · exact Or.inr hf
        · left
          have := hc2 (by simpa using hf)
          omega
      · simp [whileLoop, hc]

/-- Closed form of the whole run: with a 64-bit bound and more fuel than the
bound, `main` returns, and what it returns is `afterLoop` of the loop head
reached after `n` iterations, `n` being the first index at which the finish
flag is set or the bound is reached. -/
theorem main_closed_form {σ : Type} (m : Model σ) (vm_trace : Bool) (init : σ) (T fuel : Nat)
    (hT : T < VLUINT64_MOD) (hfuel : T < fuel) :
    ∃ n, n ≤ T ∧
      (∀ i, i < n → m.gotFinish (modelAfter m init i) = false) ∧
      (n = T ∨ m.gotFinish (modelAfter m init n) = true) ∧
      main m vm_trace T fuel init
        = some (afterLoop m vm_trace T (atLoopHead m vm_trace init n)) := by
  obtain ⟨n, _, hnT, hall, hstop, hrun⟩ :=
    whileLoop_atLoopHead m vm_trace init T hT fuel 0 (Nat.zero_le T) (by omega)
  refine ⟨n, hnT, fun i hi => hall i (Nat.zero_le i) hi, hstop, ?_⟩
  simp [main, beforeLoop_eq, hrun]

/-! ## Call-log lemmas -/

theorem dumpTimes_append {σ : Type} (xs ys : List (Call σ)) :
    dumpTimes (xs ++ ys) = dumpTimes xs ++ dumpTimes ys := by
  simp [dumpTimes, List.filterMap_append]

theorem printfTimes_append {σ : Type} (xs ys : List (Call σ)) :
    printfTimes (xs ++ ys) = printfTimes xs ++ printfTimes ys := by
  simp [printfTimes, List.filterMap_append]

theorem evalCalls_append {σ : Type} (xs ys : List (Call σ)) :
    evalCalls (xs ++ ys) = evalCalls xs ++ evalCalls ys := by
  simp [evalCalls, List.filterMap_append]

theorem finalCalls_append {σ : Type} (xs ys : List (Call σ)) :
    finalCalls (xs ++ ys) = finalCalls xs ++ finalCalls ys := by
  simp [finalCalls, List.filterMap_append]

theorem dumpTimes_loopCalls_true {σ : Type} (m : Model σ) (init : σ) (k : Nat) :
    dumpTimes (loopCalls m true init k) = List.range k := by
  induction k with
  | zero => simp [loopCalls, dumpTimes]
  | succ k ih =>
    rw [loopCalls, dumpTimes_append, ih, List.range_succ]
    simp [dumpTimes]

theorem printfTimes_loopCalls {σ : Type} (m : Model σ) (vm_trace : Bool) (init : σ) (k : Nat) :
    printfTimes (loopCalls m vm_trace init k) = [] := by
  induction k with
  | zero => simp [loopCalls, printfTimes]
  | succ k ih =>
    rw [loopCalls, printfTimes_append, ih]
    cases vm_trace <;> simp [printfTimes]

theorem finalCalls_loopCalls {σ : Type} (m : Model σ) (vm_trace : Bool) (init : σ) (k : Nat) :
    finalCalls (loopCalls m vm_trace init k) = [] := by
  induction k with
  | zero => simp [loopCalls, finalCalls]
  | succ k ih =>
    rw [loopCalls, finalCalls_append, ih]
    cases vm_trace <;> simp [finalCalls]

theorem evalCalls_loopCalls {σ : Type} (m : Model σ) (vm_trace : Bool) (init : σ) (k : Nat) :
    evalCalls (loopCalls m vm_trace init k)
      = (List.range k).map (fun i => (i, modelAfter m init i)) := by
  induction k with
  | zero => simp [loopCalls, evalCalls]
  | succ k ih =>
    rw [loopCalls, evalCalls_append, ih, List.range_succ]
    cases vm_trace <;> simp [evalCalls]

/-- Calls of the driver state at the loop head after `k` iterations. -/
theorem evalCalls_atLoopHead {σ : Type} (m : Model σ) (vm_trace : Bool) (init : σ) (k : Nat) :
    evalCalls (atLoopHead m vm_trace init k).calls
      = (0, init) :: (List.range k).map (fun i => (i, modelAfter m init i)) := by
  simp only [atLoopHead, evalCalls_append]
  rw [← evalCalls_loopCalls m vm_trace init k]
  cases vm_trace <;> simp [evalCalls]

theorem finalCalls_atLoopHead {σ : Type} (m : Model σ) (vm_trace : Bool) (init : σ) (k : Nat) :
    finalCalls (atLoopHead m vm_trace init k).calls = [] := by
  have h := finalCalls_loopCalls m vm_trace init k
  simp only [atLoopHead, finalCalls_append]
  cases vm_trace <;> simp_all [finalCalls]

theorem printfTimes_atLoopHead {σ : Type} (m : Model σ) (vm_trace : Bool) (init : σ) (k : Nat) :
    printfTimes (atLoopHead m vm_trace init k).calls = [] := by
  have h := printfTimes_loopCalls m vm_trace init k
  simp only [atLoopHead, printfTimes_append]
  cases vm_trace <;> simp_all [printfTimes]

theorem dumpTimes_atLoopHead_true {σ : Type} (m : Model σ) (init : σ) (k : Nat) :
    dumpTimes (atLoopHead m true init k).calls = List.range k := by
  have h := dumpTimes_loopCalls_true m init k
  simp only [atLoopHead, dumpTimes_append]
  simp_all [dumpTimes]

/-! ## After the loop -/

theorem afterLoop_main_time {σ : Type} (m : Model σ) (vm_trace : Bool) (T : Nat) (d : Driver σ) :
    (afterLoop m vm_trace T d).main_time = d.main_time := by
  unfold afterLoop
  cases vm_trace <;> by_cases h : d.main_time ≥ T <;> simp [h]

theorem afterLoop_exit_code {σ : Type} (m : Model σ) (vm_trace : Bool) (T : Nat) (d : Driver σ) :
    (afterLoop m vm_trace T d).exit_code = if T ≤ d.main_time then 1 else 0 := by
  unfold afterLoop
  by_cases h : d.main_time ≥ T <;> simp [h]

/-- The log of a finished run: the log at loop exit, then the diagnostic when
the bound was reached, then `top->final()`, then the trace close under
`VM_TRACE`. -/
theorem afterLoop_calls {σ : Type} (m : Model σ) (vm_trace : Bool) (T : Nat) (d : Driver σ) :
    (afterLoop m vm_trace T d).calls
      = d.calls ++ (if T ≤ d.main_time then [Call.printf d.main_time] else []) ++
          (Call.final d.main_time d.top :: (if vm_trace then [Call.vcdClose] else [])) := by
  unfold afterLoop
  cases vm_trace <;> by_cases h : d.main_time ≥ T <;> simp [h]

/-- Diagnostics of the run that leaves the loop after `n` iterations. -/
theorem printfTimes_afterLoop {σ : Type} (m : Model σ) (vm_trace : Bool) (init : σ)
    (T n : Nat) :
    printfTimes (afterLoop m vm_trace T (atLoopHead m vm_trace init n)).calls
      = if T ≤ n then [n] else [] := by
  rw [afterLoop_calls]
  simp only [printfTimes_append, printfTimes_atLoopHead]
  cases vm_trace <;> by_cases h : T ≤ n <;> simp [printfTimes, atLoopHead, h]

/-- Final evaluations of the run that leaves the loop after `n` iterations. -/
theorem finalCalls_afterLoop {σ : Type} (m : Model σ) (vm_trace : Bool) (init : σ)
    (T n : Nat) :
    finalCalls (afterLoop m vm_trace T (atLoopHead m vm_trace init n)).calls
      = [(n, modelAfter m init n)] := by
  rw [afterLoop_calls]
  simp only [finalCalls_append, finalCalls_atLoopHead]
  cases vm_trace <;> by_cases h : T ≤ n <;> simp [finalCalls, atLoopHead, h]

/-- Evaluations of the run that leaves the loop after `n` iterations. -/
theorem evalCalls_afterLoop {σ : Type} (m : Model σ) (vm_trace : Bool) (init : σ)
    (T n : Nat) :
    evalCalls (afterLoop m vm_trace T (atLoopHead m vm_trace init n)).calls
      = (0, init) :: (List.range n).map (fun i => (i, modelAfter m init i)) := by
  rw [afterLoop_calls]
  simp only [evalCalls_append, evalCalls_atLoopHead]
  cases vm_trace <;> by_cases h : T ≤ n <;> simp [evalCalls, h]

/-- Trace samples of the run that leaves the loop after `n` iterations, with
tracing compiled in. -/
theorem dumpTimes_afterLoop_true {σ : Type} (m : Model σ) (init : σ) (T n : Nat) :
    dumpTimes (afterLoop m true T (atLoopHead m true init n)).calls = List.range n := by
  rw [afterLoop_calls]
  simp only [dumpTimes_append, dumpTimes_atLoopHead_true]
  by_cases h : T ≤ n <;> simp [dumpTimes, h]

/-! ## Counting iterations -/

theorem iterLoop_atLoopHead {σ : Type} (m : Model σ) (vm_trace : Bool) (init : σ) (T : Nat)
    (hT : T < VLUINT64_MOD) :
    ∀ (k j : Nat), j + k ≤ T →
      (∀ i, j ≤ i → i < j + k → m.gotFinish (modelAfter m init i) = false) →
      iterLoop m vm_trace T k (atLoopHead m vm_trace init j)
        = some (atLoopHead m vm_trace init (j + k)) := by
  intro k
  induction k with
  | zero => intro j _ _; simp [iterLoop]
  | succ k ih =>
    intro j hj hall
    have hc : loopCond m T (atLoopHead m vm_trace init j) = true := by
      simp only [loopCond, atLoopHead, Bool.and_eq_true, Bool.not_eq_true',
        decide_eq_true_eq]
      exact ⟨hall j (le_refl j) (by omega), by omega⟩
    have hj1 : j + 1 < VLUINT64_MOD := by omega
    simp only [iterLoop, hc, if_true, loopBody_atLoopHead m vm_trace init j hj1]
    have h := ih (j + 1) (by omega) (fun i h1 h2 => hall i (by omega) (by omega))
    rw [h]
    congr 2
    omega

theorem iterLoop_inv {σ : Type} (m : Model σ) (vm_trace : Bool) (init : σ) (T : Nat)
    (hT : T < VLUINT64_MOD) :
    ∀ (k j : Nat) (d : Driver σ), j ≤ T →
      iterLoop m vm_trace T k (atLoopHead m vm_trace init j) = some d →
      j + k ≤ T ∧ d = atLoopHead m vm_trace init (j + k) ∧
        ∀ i, j ≤ i → i < j + k → m.gotFinish (modelAfter m init i) = false := by
  intro k
  induction k with
  | zero =>
    intro j d hj h
    simp only [iterLoop, Option.some.injEq] at h
    exact ⟨by omega, h.symm, fun i h1 h2 => by omega⟩
  | succ k ih =>
    intro j d hj h
    by_cases hc : loopCond m T (atLoopHead m vm_trace init j) = true
    · have hc2 := hc
      simp only [loopCond, atLoopHead, Bool.and_eq_true, Bool.not_eq_true',
        decide_eq_true_eq] at hc2
      have hj1 : j + 1 < VLUINT64_MOD := by omega
      simp only [iterLoop, hc, if_true, loopBody_atLoopHead m vm_trace init j hj1] at h
      obtain ⟨h1, h2, h3⟩ := ih (j + 1) d (by omega) h
      refine ⟨by omega, ?_, ?_⟩
      · rw [h2]
        congr 1
        omega
      · intro i hi1 hi2
        by_cases hij : i = j
        · subst hij; exact hc2.1
        · exact h3 i (by omega) (by omega)
    · simp [iterLoop, hc] at h

theorem whileLoop_of_iterLoop {σ : Type} (m : Model σ) (vm_trace : Bool) (T : Nat) :
    ∀ (n : Nat) (d e : Driver σ) (fuel : Nat),
      iterLoop m vm_trace T n d = some e → loopCond m T e = false → n < fuel →
      whileLoop m vm_trace T fuel d = some e := by
  intro n
  induction n with
  | zero =>
    intro d e fuel h hc hf
    simp only [iterLoop, Option.some.injEq] at h
    subst h
    obtain ⟨f, rfl⟩ : ∃ f, fuel = f + 1 := ⟨fuel - 1, by omega⟩
    simp [whileLoop, hc]
  | succ n ih =>
    intro d e fuel h hc hf
    obtain ⟨f, rfl⟩ : ∃ f, fuel = f + 1 := ⟨fuel - 1, by omega⟩
    by_cases hd : loopCond m T d = true
    · simp only [iterLoop, hd, if_true] at h
      simp only [whileLoop, hd, if_true]
      exact ih _ e f h hc (by omega)
    · simp [iterLoop, hd] at h

/-! ## Where the loop stops -/

/-- A run whose evaluations never set the flag is the run of `T` iterations. -/
theorem main_of_never {σ : Type} (m : Model σ) (vm_trace : Bool) (init : σ) (T fuel : Nat)
    (hT : T < VLUINT64_MOD) (hfuel : T < fuel)
    (hnever : ∀ k, k ≤ T → m.gotFinish (modelAfter m init k) = false) :
    main m vm_trace T fuel init
      = some (afterLoop m vm_trace T (atLoopHead m vm_trace init T)) := by
  obtain ⟨n, hnT, _, hstop, hrun⟩ := main_closed_form m vm_trace init T fuel hT hfuel
  rcases hstop with h | h
  · rw [hrun, h]
  · rw [hnever n hnT] at h
    exact absurd h (by simp)

/-- A run in which the flag is first set by the loop evaluation made at
`main_time = t` is the run of `t + 1` iterations. -/
theorem main_of_first_finish {σ : Type} (m : Model σ) (vm_trace : Bool) (init : σ)
    (T fuel t : Nat) (hT : T < VLUINT64_MOD) (hfuel : T < fuel) (ht : t < T)
    (hclear : ∀ k, k ≤ t → m.gotFinish (modelAfter m init k) = false)
    (hset : m.gotFinish (modelAfter m init (t + 1)) = true) :
    main m vm_trace T fuel init
      = some (afterLoop m vm_trace T (atLoopHead m vm_trace init (t + 1))) := by
  obtain ⟨n, hnT, hall, hstop, hrun⟩ := main_closed_form m vm_trace init T fuel hT hfuel
  have h1 : n ≤ t + 1 := by
    by_contra hlt
    have := hall (t + 1) (by omega)
    rw [hset] at this
    exact absurd this (by simp)
  have h2 : t + 1 ≤ n := by
    by_contra hlt
    rcases hstop with h | h
    · omega
    · rw [hclear n (by omega)] at h
      exact absurd h (by simp)
  have : n = t + 1 := by omega
  rw [hrun, this]

theorem modelAfter_finishAfter (n k : Nat) : modelAfter (finishAfter n) 0 k = k + 1 := by
  induction k with
  | zero => simp [modelAfter, finishAfter]
  | succ k ih => rw [modelAfter, ih]; simp [finishAfter]

theorem gotFinish_finishAfter (n k : Nat) :
    (finishAfter n).gotFinish (modelAfter (finishAfter n) 0 k) = decide (n ≤ k + 1) := by
  rw [modelAfter_finishAfter]
  simp [finishAfter]

theorem gotFinish_neverFinish (k : Nat) :
    neverFinish.gotFinish (modelAfter neverFinish () k) = false := by
  simp [neverFinish]

theorem lt_VLUINT64_MOD_of_le {T : Nat} (h : T ≤ 1000000000) : T < VLUINT64_MOD := by
  unfold VLUINT64_MOD
  omega

/-! ## Timeout and completion -/

/-- C1: for every 64-bit timeout bound `T` (zero included) and every model whose
evaluations never set the finish flag (the flag reads false after the
evaluation before the loop and after each loop evaluation, which is what
`modelAfter m init k` for `k ≤ T` ranges over), `main` returns, the elapsed
simulated time `main_time` at the end of the run is exactly `T`, and the exit
code is 1. -/
theorem main_never_finished_times_out {σ : Type} (m : Model σ) (vm_trace : Bool) (init : σ)
    (T fuel : Nat) (hT : T < VLUINT64_MOD) (hfuel : T < fuel)
    (hnever : ∀ k, k ≤ T → m.gotFinish (modelAfter m init k) = false) :
    ∃ r, main m vm_trace T fuel init = some r ∧ r.main_time = T ∧ r.exit_code = 1 := by
  refine ⟨_, main_of_never m vm_trace init T fuel hT hfuel hnever, ?_, ?_⟩
  · rw [afterLoop_main_time]; rfl
  · rw [afterLoop_exit_code]; simp [atLoopHead]

/-- C1 at `T = 10` with a model that never finishes: exit code 1, final time 10. -/
theorem main_never_finished_times_out_witness :
    (10 < VLUINT64_MOD ∧ 10 < 11) ∧
      ∃ r, main neverFinish false 10 11 () = some r ∧ r.main_time = 10 ∧ r.exit_code = 1 :=
  ⟨⟨by decide, by decide⟩,
    main_never_finished_times_out neverFinish false () 10 11 (by decide) (by decide)
      (fun k _ => gotFinish_neverFinish k)⟩

/-- C2 (evaluated on the code): with `max_time = 1000000000`, a model that first
sets the finish flag in the loop evaluation made at `main_time = 42` gives exit
code 0 and no diagnostic, but a model that first sets it in the loop evaluation
made at `main_time = 999999999`, which is below the bound, gives exit code 1 and
the timeout diagnostic with value 1000000000. -/
theorem main_finish_in_last_iteration_exit_code :
    ((∀ k, k ≤ 42 → (finishAfter 44).gotFinish (modelAfter (finishAfter 44) 0 k) = false) ∧
      (finishAfter 44).gotFinish (modelAfter (finishAfter 44) 0 43) = true ∧
      ∃ r, main (finishAfter 44) true 1000000000 1000000001 0 = some r ∧
        r.exit_code = 0 ∧ printfTimes r.calls = []) ∧
    ((∀ k, k ≤ 999999999 →
        (finishAfter 1000000001).gotFinish (modelAfter (finishAfter 1000000001) 0 k) = false) ∧
      (finishAfter 1000000001).gotFinish
        (modelAfter (finishAfter 1000000001) 0 1000000000) = true ∧
      ∃ r, main (finishAfter 1000000001) true 1000000000 1000000001 0 = some r ∧
        r.exit_code = 1 ∧ printfTimes r.calls = [1000000000]) := by
  have h1 : ∀ k, k ≤ 42 →
      (finishAfter 44).gotFinish (modelAfter (finishAfter 44) 0 k) = false := by
    intro k hk
    rw [gotFinish_finishAfter]
    simp
    omega
  have h2 : (finishAfter 44).gotFinish (modelAfter (finishAfter 44) 0 (42 + 1)) = true := by
    rw [gotFinish_finishAfter]
    simp
  have h3 : ∀ k, k ≤ 999999999 →
      (finishAfter 1000000001).gotFinish (modelAfter (finishAfter 1000000001) 0 k) = false := by
    intro k hk
    rw [gotFinish_finishAfter]
    simp
    omega
  have h4 : (finishAfter 1000000001).gotFinish
      (modelAfter (finishAfter 1000000001) 0 (999999999 + 1)) = true := by
    rw [gotFinish_finishAfter]
    simp
  have hT : 1000000000 < VLUINT64_MOD := lt_VLUINT64_MOD_of_le (le_refl _)
  refine ⟨⟨h1, h2, _, main_of_first_finish (finishAfter 44) true 0 1000000000 1000000001 42
      hT (by omega) (by omega) h1 h2, ?_, ?_⟩,
    ⟨h3, h4, _, main_of_first_finish (finishAfter 1000000001) true 0 1000000000 1000000001
      999999999 hT (by omega) (by omega) h3 h4, ?_, ?_⟩⟩
  · rw [afterLoop_exit_code]; simp [atLoopHead]
  · rw [printfTimes_afterLoop]; simp
  · rw [afterLoop_exit_code]; simp [atLoopHead]
  · rw [printfTimes_afterLoop]; simp

/-- C3 fails as stated: with `max_time = 1000000000` and a model that first sets
the finish flag in the loop evaluation made at `main_time = 42`, the loop is
left, and `top->final()` is called, with `main_time = 43`, not 42. -/
theorem main_time_after_finish_at_42 :
    (∀ k, k ≤ 42 → (finishAfter 44).gotFinish (modelAfter (finishAfter 44) 0 k) = false) ∧
    (finishAfter 44).gotFinish (modelAfter (finishAfter 44) 0 43) = true ∧
    ∃ r, main (finishAfter 44) false 1000000000 1000000001 0 = some r ∧
      r.main_time = 43 ∧ r.main_time ≠ 42 ∧ finalCalls r.calls = [(43, 44)] := by
  refine ⟨?_, ?_, ?_⟩
  · intro k hk
    rw [gotFinish_finishAfter]
    simp
    omega
  · rw [gotFinish_finishAfter]
    simp
  · refine ⟨_, rfl, ?_, ?_, ?_⟩ <;> decide

/-- C3 as amended: for every 64-bit timeout bound `T` and every `t < T`, if the
model first sets the finish flag in the loop evaluation made at `main_time = t`,
then the loop is left with `main_time = t + 1`, and `top->final()` is called
once, with `main_time = t + 1`, which is also the value at the end of the run. -/
theorem main_time_after_first_finish {σ : Type} (m : Model σ) (vm_trace : Bool) (init : σ)
    (T fuel t : Nat) (hT : T < VLUINT64_MOD) (hfuel : T < fuel) (ht : t < T)
    (hclear : ∀ k, k ≤ t → m.gotFinish (modelAfter m init k) = false)
    (hset : m.gotFinish (modelAfter m init (t + 1)) = true) :
    ∃ d r, whileLoop m vm_trace T fuel (beforeLoop m vm_trace init) = some d ∧
      d.main_time = t + 1 ∧
      main m vm_trace T fuel init = some r ∧
      r.main_time = t + 1 ∧
      finalCalls r.calls = [(t + 1, modelAfter m init (t + 1))] := by
  have hmain := main_of_first_finish m vm_trace init T fuel t hT hfuel ht hclear hset
  have hloop : whileLoop m vm_trace T fuel (beforeLoop m vm_trace init)
      = some (atLoopHead m vm_trace init (t + 1)) := by
    rw [beforeLoop_eq]
    apply whileLoop_of_iterLoop m vm_trace T (t + 1) _ _ fuel
    · have h := iterLoop_atLoopHead m vm_trace init T hT (t + 1) 0 (by omega)
        (fun i _ hi => hclear i (by omega))
      simpa using h
    · simp [loopCond, atLoopHead, hset]
    · omega
  refine ⟨_, _, hloop, rfl, hmain, ?_, ?_⟩
  · rw [afterLoop_main_time]; rfl
  · rw [finalCalls_afterLoop]

/-- C3 as amended, at `T = 1000000000` and `t = 42`: final time 43. -/
theorem main_time_after_first_finish_witness :
    (1000000000 < VLUINT64_MOD ∧ 1000000000 < 1000000001 ∧ 42 < 1000000000) ∧
    ∃ d r, whileLoop (finishAfter 44) true 1000000000 1000000001
        (beforeLoop (finishAfter 44) true 0) = some d ∧
      d.main_time = 42 + 1 ∧
      main (finishAfter 44) true 1000000000 1000000001 0 = some r ∧
      r.main_time = 42 + 1 ∧
      finalCalls r.calls = [(42 + 1, modelAfter (finishAfter 44) 0 (42 + 1))] :=
  ⟨⟨by decide, by decide, by decide⟩,
    main_time_after_first_finish (finishAfter 44) true 0 1000000000 1000000001 42
      (by decide) (by decide) (by decide)
      (fun k hk => by rw [gotFinish_finishAfter]; simp; omega)
      (by rw [gotFinish_finishAfter]; simp)⟩

/-! ## Final evaluation, trace samples, diagnostic -/

/-- C4: for every 64-bit timeout bound `T` and every model, a run of `main`
calls `top->final()` exactly once, whether it returns 0 or 1, and that call
comes after every `top->eval()` call: the log splits around the one final
evaluation, with all evaluations (at least one) before it and none after. -/
theorem main_final_called_once {σ : Type} (m : Model σ) (vm_trace : Bool) (init : σ)
    (T fuel : Nat) (hT : T < VLUINT64_MOD) (hfuel : T < fuel) :
    ∃ r, main m vm_trace T fuel init = some r ∧
      (r.exit_code = 0 ∨ r.exit_code = 1) ∧
      (finalCalls r.calls).length = 1 ∧
      ∃ before s after, r.calls = before ++ Call.final r.main_time s :: after ∧
        finalCalls before = [] ∧ finalCalls after = [] ∧
        evalCalls before ≠ [] ∧ evalCalls after = [] := by
  obtain ⟨n, _, _, _, hrun⟩ := main_closed_form m vm_trace init T fuel hT hfuel
  refine ⟨_, hrun, ?_, ?_, ?_⟩
  · rw [afterLoop_exit_code]
    by_cases h : T ≤ (atLoopHead m vm_trace init n).main_time <;> simp [h]
  · rw [finalCalls_afterLoop]; rfl
  · refine ⟨(atLoopHead m vm_trace init n).calls ++
        (if T ≤ n then [Call.printf n] else []), modelAfter m init n,
        (if vm_trace then [Call.vcdClose] else []), ?_, ?_, ?_, ?_, ?_⟩
    · rw [afterLoop_calls, afterLoop_main_time]
      simp [atLoopHead]
    · rw [finalCalls_append, finalCalls_atLoopHead]
      by_cases h : T ≤ n <;> simp [finalCalls, h]
    · cases vm_trace <;> simp [finalCalls]
    · rw [evalCalls_append, evalCalls_atLoopHead]
      simp
    · cases vm_trace <;> simp [evalCalls]

/-- C4 at `T = 10` with a model that never finishes. -/
theorem main_final_called_once_witness :
    (10 < VLUINT64_MOD ∧ 10 < 11) ∧
    ∃ r, main neverFinish true 10 11 () = some r ∧
      (r.exit_code = 0 ∨ r.exit_code = 1) ∧
      (finalCalls r.calls).length = 1 ∧
      ∃ before s after, r.calls = before ++ Call.final r.main_time s :: after ∧
        finalCalls before = [] ∧ finalCalls after = [] ∧
        evalCalls before ≠ [] ∧ evalCalls after = [] :=
  ⟨⟨by decide, by decide⟩,
    main_final_called_once neverFinish true () 10 11 (by decide) (by decide)⟩

/-- C5: with tracing compiled in, for every 64-bit timeout bound `T` and every
model, the timestamps passed to `tfp->dump` over the whole run are exactly
`0, 1, ..., n - 1`, where `n` is the number of completed loop iterations and
also the final `main_time`. The calls made before the loop carry no sample,
the calls made after it carry none, and there is one more evaluation than
there are samples. -/
theorem main_trace_samples {σ : Type} (m : Model σ) (init : σ) (T fuel : Nat)
    (hT : T < VLUINT64_MOD) (hfuel : T < fuel) :
    ∃ n d r, iterLoop m true T n (beforeLoop m true init) = some d ∧
      loopCond m T d = false ∧
      main m true T fuel init = some r ∧
      r.main_time = n ∧
      dumpTimes r.calls = List.range n ∧
      (evalCalls r.calls).length = n + 1 ∧
      ∃ inLoop afterwards,
        d.calls = (beforeLoop m true init).calls ++ inLoop ∧
        r.calls = d.calls ++ afterwards ∧
        dumpTimes (beforeLoop m true init).calls = [] ∧
        dumpTimes inLoop = List.range n ∧
        dumpTimes afterwards = [] := by
  obtain ⟨n, hnT, hall, hstop, hrun⟩ := main_closed_form m true init T fuel hT hfuel
  refine ⟨n, atLoopHead m true init n, _, ?_, ?_, hrun, ?_, ?_, ?_, ?_⟩
  · rw [beforeLoop_eq]
    have h := iterLoop_atLoopHead m true init T hT n 0 (by omega) (fun i _ hi => hall i (by omega))
    simpa using h
  · rcases hstop with h | h
    · simp [loopCond, atLoopHead, h]
    · simp [loopCond, atLoopHead, h]
  · rw [afterLoop_main_time]; rfl
  · rw [dumpTimes_afterLoop_true]
  · rw [evalCalls_afterLoop]; simp
  · refine ⟨loopCalls m true init n,
      (if T ≤ n then [Call.printf n] else []) ++
        (Call.final n (modelAfter m init n) :: [Call.vcdClose]), ?_, ?_, ?_, ?_, ?_⟩
    · simp [beforeLoop, atLoopHead]
    · rw [afterLoop_calls]
      simp [atLoopHead]
    · simp [beforeLoop, dumpTimes]
    · exact dumpTimes_loopCalls_true m init n
    · by_cases h : T ≤ n <;> simp [dumpTimes, h]

/-- C5 at `T = 10` with a model that never finishes. -/
theorem main_trace_samples_witness :
    (10 < VLUINT64_MOD ∧ 10 < 11) ∧
    ∃ n d r, iterLoop neverFinish true 10 n (beforeLoop neverFinish true ()) = some d ∧
      loopCond neverFinish 10 d = false ∧
      main neverFinish true 10 11 () = some r ∧
      r.main_time = n ∧
      dumpTimes r.calls = List.range n ∧
      (evalCalls r.calls).length = n + 1 ∧
      ∃ inLoop afterwards,
        d.calls = (beforeLoop neverFinish true ()).calls ++ inLoop ∧
        r.calls = d.calls ++ afterwards ∧
        dumpTimes (beforeLoop neverFinish true ()).calls = [] ∧
        dumpTimes inLoop = List.range n ∧
        dumpTimes afterwards = [] :=
  ⟨⟨by decide, by decide⟩, main_trace_samples neverFinish () 10 11 (by decide) (by decide)⟩

/-- C6: each of the six backdoor stub functions returns 0 for every path and
every value argument and leaves the string behind `path` and the words behind
`value` as they were. -/
theorem uvm_hdl_stubs_return_zero (path : List Nat) (value : List VpiVecval) :
    uvm_hdl_check_path path = (0, path) ∧
    uvm_hdl_read path value = (0, path, value) ∧
    uvm_hdl_deposit path value = (0, path, value) ∧
    uvm_hdl_force path value = (0, path, value) ∧
    uvm_hdl_release_and_read path value = (0, path, value) ∧
    uvm_hdl_release path = (0, path) :=
  ⟨rfl, rfl, rfl, rfl, rfl, rfl⟩

/-- C7: for every 64-bit timeout bound `T` and every model, the timeout
diagnostic is printed exactly when `main` returns 1: a run that returns 1
prints one line, carrying the final `main_time`; any other run returns 0 and
prints nothing. For a model that never finishes the exit code is 1 and the one
line carries `T`. -/
theorem main_diagnostic_iff_exit_code_one {σ : Type} (m : Model σ) (vm_trace : Bool)
    (init : σ) (T fuel : Nat) (hT : T < VLUINT64_MOD) (hfuel : T < fuel) :
    ∃ r, main m vm_trace T fuel init = some r ∧
      (r.exit_code = 1 → printfTimes r.calls = [r.main_time]) ∧
      (r.exit_code ≠ 1 → r.exit_code = 0 ∧ printfTimes r.calls = []) ∧
      ((∀ k, k ≤ T → m.gotFinish (modelAfter m init k) = false) →
        r.exit_code = 1 ∧ r.main_time = T ∧ printfTimes r.calls = [T]) := by
  obtain ⟨n, hnT, hall, hstop, hrun⟩ := main_closed_form m vm_trace init T fuel hT hfuel
  refine ⟨_, hrun, ?_, ?_, ?_⟩
  · rw [afterLoop_exit_code, afterLoop_main_time, printfTimes_afterLoop]
    by_cases h : T ≤ n <;> simp [atLoopHead, h]
  · rw [afterLoop_exit_code, printfTimes_afterLoop]
    by_cases h : T ≤ n <;> simp [atLoopHead, h]
  · intro hnever
    have hn : n = T := by
      rcases hstop with h | h
      · exact h
      · rw [hnever n hnT] at h
        exact absurd h (by simp)
    rw [afterLoop_exit_code, afterLoop_main_time, printfTimes_afterLoop]
    simp [atLoopHead, hn]

/-- C7 at `T = 10` with a model that never finishes: one line, value 10. -/
theorem main_diagnostic_iff_exit_code_one_witness :
    (10 < VLUINT64_MOD ∧ 10 < 11) ∧
    ∃ r, main neverFinish false 10 11 () = some r ∧
      (r.exit_code = 1 → printfTimes r.calls = [r.main_time]) ∧
      (r.exit_code ≠ 1 → r.exit_code = 0 ∧ printfTimes r.calls = []) ∧
      ((∀ k, k ≤ 10 → neverFinish.gotFinish (modelAfter neverFinish () k) = false) →
        r.exit_code = 1 ∧ r.main_time = 10 ∧ printfTimes r.calls = [10]) :=
  ⟨⟨by decide, by decide⟩,
    main_diagnostic_iff_exit_code_one neverFinish false () 10 11 (by decide) (by decide)⟩

/-! ## Simulated time and termination -/

/-- C8: for every 64-bit timeout bound `T` and every model, after `k` completed
loop iterations the 64-bit counter `main_time` equals `k` as a natural number
(so `k` is at most `T` and nothing wrapped modulo `2 ^ 64`), every earlier
count `j` was reached with `main_time = j`, and one more iteration, when the
loop condition allows it, adds exactly one. -/
theorem main_time_counts_iterations {σ : Type} (m : Model σ) (vm_trace : Bool) (init : σ)
    (T k : Nat) (d : Driver σ) (hT : T < VLUINT64_MOD)
    (hiter : iterLoop m vm_trace T k (beforeLoop m vm_trace init) = some d) :
    (beforeLoop m vm_trace init).main_time = 0 ∧
    d.main_time = k ∧ k ≤ T ∧ d.main_time < VLUINT64_MOD ∧
    (∀ j, j ≤ k → ∃ e, iterLoop m vm_trace T j (beforeLoop m vm_trace init) = some e ∧
      e.main_time = j ∧ e.main_time ≤ d.main_time) ∧
    (loopCond m T d = true → (loopBody m vm_trace d).main_time = d.main_time + 1) := by
  rw [beforeLoop_eq] at hiter
  obtain ⟨h1, h2, h3⟩ := iterLoop_inv m vm_trace init T hT k 0 d (Nat.zero_le T) hiter
  simp only [Nat.zero_add] at h1 h2 h3
  subst h2
  refine ⟨by simp [beforeLoop_eq, atLoopHead], rfl, h1, ?_, ?_, ?_⟩
  · show k < VLUINT64_MOD
    omega
  · intro j hj
    refine ⟨atLoopHead m vm_trace init j, ?_, rfl, hj⟩
    rw [beforeLoop_eq]
    have h := iterLoop_atLoopHead m vm_trace init T hT j 0 (by omega)
      (fun i hi1 hi2 => h3 i hi1 (by omega))
    simpa using h
  · intro hc
    simp only [loopCond, atLoopHead, Bool.and_eq_true, Bool.not_eq_true',
      decide_eq_true_eq] at hc
    rw [loopBody_atLoopHead m vm_trace init k (by omega)]
    rfl

/-- C8 at `T = 10` with a model that never finishes, after 3 iterations. -/
theorem main_time_counts_iterations_witness :
    (10 < VLUINT64_MOD ∧
      iterLoop neverFinish false 10 3 (beforeLoop neverFinish false ())
        = some (atLoopHead neverFinish false () 3)) ∧
    ((beforeLoop neverFinish false ()).main_time = 0 ∧
      (atLoopHead neverFinish false () 3).main_time = 3 ∧ 3 ≤ 10 ∧
      (atLoopHead neverFinish false () 3).main_time < VLUINT64_MOD ∧
      (∀ j, j ≤ 3 → ∃ e, iterLoop neverFinish false 10 j (beforeLoop neverFinish false ())
          = some e ∧
        e.main_time = j ∧ e.main_time ≤ (atLoopHead neverFinish false () 3).main_time) ∧
      (loopCond neverFinish 10 (atLoopHead neverFinish false () 3) = true →
        (loopBody neverFinish false (atLoopHead neverFinish false () 3)).main_time
          = (atLoopHead neverFinish false () 3).main_time + 1)) :=
  ⟨⟨by decide, rfl⟩,
    main_time_counts_iterations neverFinish false () 10 3 (atLoopHead neverFinish false () 3)
      (by decide) rfl⟩

/-- C9: for every 64-bit timeout bound `T` and every model, whether or not it
ever finishes, the loop is left after some number `n ≤ T` of completed
iterations, with `main_time ≤ T`; any fuel above `n` is enough for the loop and
for `main` to return. -/
theorem main_loop_terminates_within_bound {σ : Type} (m : Model σ) (vm_trace : Bool)
    (init : σ) (T : Nat) (hT : T < VLUINT64_MOD) :
    ∃ n d, n ≤ T ∧
      iterLoop m vm_trace T n (beforeLoop m vm_trace init) = some d ∧
      loopCond m T d = false ∧
      d.main_time ≤ T ∧
      ∀ fuel, n < fuel →
        whileLoop m vm_trace T fuel (beforeLoop m vm_trace init) = some d ∧
        ∃ r, main m vm_trace T fuel init = some r ∧ r.main_time = d.main_time ∧
          r.main_time ≤ T := by
  obtain ⟨n, hnT, hall, hstop, _⟩ :=
    main_closed_form m vm_trace init T (T + 1) hT (Nat.lt_succ_self T)
  have hiter : iterLoop m vm_trace T n (beforeLoop m vm_trace init)
      = some (atLoopHead m vm_trace init n) := by
    rw [beforeLoop_eq]
    have h := iterLoop_atLoopHead m vm_trace init T hT n 0 (by omega)
      (fun i _ hi => hall i (by omega))
    simpa using h
  have hcond : loopCond m T (atLoopHead m vm_trace init n) = false := by
    rcases hstop with h | h
    · simp [loopCond, atLoopHead, h]
    · simp [loopCond, atLoopHead, h]
  refine ⟨n, atLoopHead m vm_trace init n, hnT, hiter, hcond, hnT, ?_⟩
  intro fuel hfuel
  have hloop := whileLoop_of_iterLoop m vm_trace T n _ _ fuel hiter hcond hfuel
  refine ⟨hloop, afterLoop m vm_trace T (atLoopHead m vm_trace init n), ?_, ?_, ?_⟩
  · simp [main, hloop]
  · rw [afterLoop_main_time]
  · rw [afterLoop_main_time]; exact hnT

/-- C9 at `T = 10` with a model that finishes after three evaluations. -/
theorem main_loop_terminates_within_bound_witness :
    10 < VLUINT64_MOD ∧
    ∃ n d, n ≤ 10 ∧
      iterLoop (finishAfter 3) true 10 n (beforeLoop (finishAfter 3) true 0) = some d ∧
      loopCond (finishAfter 3) 10 d = false ∧
      d.main_time ≤ 10 ∧
      ∀ fuel, n < fuel →
        whileLoop (finishAfter 3) true 10 fuel (beforeLoop (finishAfter 3) true 0) = some d ∧
        ∃ r, main (finishAfter 3) true 10 fuel 0 = some r ∧ r.main_time = d.main_time ∧
          r.main_time ≤ 10 :=
  ⟨by decide, main_loop_terminates_within_bound (finishAfter 3) true 0 10 (by decide)⟩

/-! ## No evaluation once the finish flag is set -/

/-- The entry at position `j` of the evaluation list of a run: the evaluation
made there produces the world state `modelAfter m init j`. -/
theorem eval_at_index {σ : Type} (m : Model σ) (init : σ) (n j t : Nat) (s : σ)
    (h : ((0, init) :: (List.range n).map (fun i => (i, modelAfter m init i)))[j]?
      = some (t, s)) :
    m.eval t s = modelAfter m init j := by
  cases j with
  | zero =>
    simp only [List.getElem?_cons_zero, Option.some.injEq, Prod.mk.injEq] at h
    obtain ⟨h1, h2⟩ := h
    subst h1 h2
    rfl
  | succ i =>
    simp only [List.getElem?_cons_succ, List.getElem?_map] at h
    by_cases hi : i < n
    · rw [List.getElem?_range hi] at h
      simp only [Option.map_some', Option.some.injEq, Prod.mk.injEq] at h
      obtain ⟨h1, h2⟩ := h
      subst h1 h2
      rfl
    · rw [List.getElem?_eq_none (by simpa using hi)] at h
      simp at h

/-- Splitting a list at an element: its position and the total length. -/
theorem split_index {α : Type} (l xs ys : List α) (x : α) (h : l = xs ++ x :: ys) :
    l[xs.length]? = some x ∧ l.length = xs.length + 1 + ys.length := by
  subst h
  constructor
  · rw [List.getElem?_append_right (Nat.le_refl _)]
    simp
  · simp; omega

/-- In the log of a finished run, nothing before a `top->eval()` call is a
`top->final()` call. -/
theorem finalCalls_before_eval {σ : Type} (m : Model σ) (vm_trace : Bool) (init : σ)
    (T n : Nat) (xs ys : List (Call σ)) (t : Nat) (s : σ)
    (h : (afterLoop m vm_trace T (atLoopHead m vm_trace init n)).calls
      = xs ++ Call.eval t s :: ys) :
    finalCalls xs = [] := by
  rw [afterLoop_calls, List.append_eq_append_iff] at h
  rcases h with ⟨a, _, h2⟩ | ⟨c, h1, _⟩
  · cases a with
    | nil => simp at h2
    | cons a0 as =>
      simp only [List.cons_append, List.cons.injEq] at h2
      obtain ⟨_, h3⟩ := h2
      have h4 := congrArg evalCalls h3
      rw [evalCalls_append] at h4
      cases vm_trace <;> simp [evalCalls] at h4
  · have h3 : finalCalls ((atLoopHead m vm_trace init n).calls ++
        (if T ≤ (atLoopHead m vm_trace init n).main_time
          then [Call.printf (atLoopHead m vm_trace init n).main_time] else [])) = [] := by
      rw [finalCalls_append, finalCalls_atLoopHead]
      split <;> simp [finalCalls]
    rw [h1, finalCalls_append] at h3
    exact (List.append_eq_nil.mp h3).1

/-- C10: assume the finish flag is clear at process start. For every 64-bit
timeout bound `T` and every model, `top->eval()` is only ever called in a state
with the flag clear; after a `top->eval()` call that sets the flag the rest of
the run holds no `top->eval()` call and exactly one `top->final()` call; and
when the evaluation before the loop sets the flag, the loop body does not run
once, the run has that single evaluation, and `main_time` stays 0. -/
theorem main_no_eval_after_finish {σ : Type} (m : Model σ) (vm_trace : Bool) (init : σ)
    (T fuel : Nat) (hT : T < VLUINT64_MOD) (hfuel : T < fuel)
    (hstart : m.gotFinish init = false) :
    ∃ r, main m vm_trace T fuel init = some r ∧
      (∀ c ∈ evalCalls r.calls, m.gotFinish c.2 = false) ∧
      (∀ before t s after, r.calls = before ++ Call.eval t s :: after →
        m.gotFinish (m.eval t s) = true →
        evalCalls after = [] ∧ (finalCalls after).length = 1) ∧
      (m.gotFinish (m.eval 0 init) = true →
        iterLoop m vm_trace T 1 (beforeLoop m vm_trace init) = none ∧
        evalCalls r.calls = [(0, init)] ∧ r.main_time = 0) := by
  obtain ⟨n, hnT, hall, hstop, hrun⟩ := main_closed_form m vm_trace init T fuel hT hfuel
  refine ⟨_, hrun, ?_, ?_, ?_⟩
  · intro c hc
    rw [evalCalls_afterLoop] at hc
    simp only [List.mem_cons, List.mem_map, List.mem_range] at hc
    rcases hc with rfl | ⟨i, hi, rfl⟩
    · exact hstart
    · exact hall i hi
  · intro xs t s ys hsplit hset
    have hfin := finalCalls_before_eval m vm_trace init T n xs ys t s hsplit
    have hE := congrArg evalCalls hsplit
    have hF := congrArg finalCalls hsplit
    rw [evalCalls_afterLoop, evalCalls_append] at hE
    rw [finalCalls_afterLoop, finalCalls_append, hfin] at hF
    have hE2 : (0, init) :: (List.range n).map (fun i => (i, modelAfter m init i))
        = evalCalls xs ++ (t, s) :: evalCalls ys := by
      rw [hE]; simp [evalCalls]
    obtain ⟨hidx, hlen⟩ := split_index _ _ _ _ hE2
    have hstate := eval_at_index m init n _ t s hidx
    simp only [List.length_cons, List.length_map, List.length_range] at hlen
    have hge : n ≤ (evalCalls xs).length := by
      by_contra hlt
      have := hall _ (Nat.lt_of_not_le hlt)
      rw [← hstate, hset] at this
      exact absurd this (by simp)
    constructor
    · exact List.eq_nil_of_length_eq_zero (by omega)
    · have hF2 : [(n, modelAfter m init n)] = finalCalls ys := by
        rw [hF]; simp [finalCalls]
      rw [← hF2]; rfl
  · intro hset0
    have hn : n = 0 := by
      by_contra hne
      have := hall 0 (Nat.pos_of_ne_zero hne)
      rw [modelAfter, hset0] at this
      exact absurd this (by simp)
    subst hn
    refine ⟨?_, ?_, ?_⟩
    · have hc : loopCond m T (beforeLoop m vm_trace init) = false := by
        rw [beforeLoop_eq]
        simp [loopCond, atLoopHead, modelAfter, hset0]
      simp [iterLoop, hc]
    · rw [evalCalls_afterLoop]; simp
    · rw [afterLoop_main_time]; rfl

/-- C10 at `T = 10` with a model that finishes in the evaluation before the
loop. -/
theorem main_no_eval_after_finish_witness :
    (10 < VLUINT64_MOD ∧ 10 < 11 ∧ (finishAfter 1).gotFinish 0 = false) ∧
    ∃ r, main (finishAfter 1) true 10 11 0 = some r ∧
      (∀ c ∈ evalCalls r.calls, (finishAfter 1).gotFinish c.2 = false) ∧
      (∀ before t s after, r.calls = before ++ Call.eval t s :: after →
        (finishAfter 1).gotFinish ((finishAfter 1).eval t s) = true →
        evalCalls after = [] ∧ (finalCalls after).length = 1) ∧
      ((finishAfter 1).gotFinish ((finishAfter 1).eval 0 0) = true →
        iterLoop (finishAfter 1) true 10 1 (beforeLoop (finishAfter 1) true 0) = none ∧
        evalCalls r.calls = [(0, 0)] ∧ r.main_time = 0) :=
  ⟨⟨by decide, by decide, by decide⟩,
    main_no_eval_after_finish (finishAfter 1) true 0 10 11 (by decide) (by decide)
      (by decide)⟩

end DDR2Tb
